/-
Verification of the CLI orchestration layer of dotenv-linter (src/main.rs).

The source under verification is the binary entry point: it declares the
clap argument schema (`get_args`, `common_args`, `no_color_flag`,
`quiet_flag`), applies the output-color policy (`disable_color_output`),
routes the parsed matches to one of the collaborators
(`check` / `fix` / `available_check_names` / `compare`), and maps each
outcome to a process exit code.

The collaborators themselves and the clap parser live outside src/, so:
  - the schema data below is a direct embedding of the declarations in
    `main.rs`;
  - the parser is modelled from the spec (see the doc comments on
    `scanA` / `validateArgs` / `parseTokens`);
  - collaborator outcomes are opaque parameters (`Collab`), exactly the
    contracts the spec gives in its external-interfaces section.
-/
import Mathlib

set_option autoImplicit false

deriving instance DecidableEq for Except

namespace DotenvLinter

/-! ## Argument schema (embedding of `common_args`, `quiet_flag`,
`no_color_flag` and the subcommand declarations inside `get_args`) -/

/-- One clap `Arg` declaration: name, optional short/long form, whether it
takes a value, whether it may repeat, the minimum number of values,
whether it is required, an optional default value and an optional
positional index.  An argument with neither a short nor a long form is
positional. -/
structure ArgDecl where
  name : String
  short : Option String
  long : Option String
  takesValue : Bool
  multiple : Bool
  minValues : Option Nat
  required : Bool
  defaultValue : Option String
  index : Option Nat
deriving Repr, DecidableEq

/-- Embedding of `no_color_flag()` in main.rs. -/
def no_color_flag : ArgDecl :=
  { name := "no-color", short := none, long := some "no-color",
    takesValue := false, multiple := false, minValues := none,
    required := false, defaultValue := none, index := none }

/-- Embedding of `quiet_flag()` in main.rs. -/
def quiet_flag : ArgDecl :=
  { name := "quiet", short := some "q", long := some "quiet",
    takesValue := false, multiple := false, minValues := none,
    required := false, defaultValue := none, index := none }

/-- Embedding of the `input` declaration inside `common_args` in main.rs:
positional index 1, default value the current directory, required,
multiple. -/
def input_arg (current_dir : String) : ArgDecl :=
  { name := "input", short := none, long := none,
    takesValue := true, multiple := true, minValues := none,
    required := true, defaultValue := some current_dir, index := some 1 }

/-- Embedding of the `exclude` declaration inside `common_args`. -/
def exclude_arg : ArgDecl :=
  { name := "exclude", short := some "e", long := some "exclude",
    takesValue := true, multiple := true, minValues := none,
    required := false, defaultValue := none, index := none }

/-- Embedding of the `skip` declaration inside `common_args`. -/
def skip_arg : ArgDecl :=
  { name := "skip", short := some "s", long := some "skip",
    takesValue := true, multiple := true, minValues := none,
    required := false, defaultValue := none, index := none }

/-- Embedding of the `recursive` declaration inside `common_args`. -/
def recursive_arg : ArgDecl :=
  { name := "recursive", short := some "r", long := some "recursive",
    takesValue := false, multiple := false, minValues := none,
    required := false, defaultValue := none, index := none }

/-- Embedding of `common_args(current_dir)` in main.rs, in declaration
order. -/
def common_args (current_dir : String) : List ArgDecl :=
  [input_arg current_dir, exclude_arg, skip_arg, recursive_arg,
   no_color_flag, quiet_flag]

/-- Embedding of the `no-backup` flag declared on the `fix` subcommand in
`get_args`. -/
def no_backup_flag : ArgDecl :=
  { name := "no-backup", short := none, long := some "no-backup",
    takesValue := false, multiple := false, minValues := none,
    required := false, defaultValue := none, index := none }

/-- Embedding of the `input` declaration of the `compare` subcommand in
`get_args`: positional, multiple, at least two values, required, no
default. -/
def compare_input : ArgDecl :=
  { name := "input", short := none, long := none,
    takesValue := true, multiple := true, minValues := some 2,
    required := true, defaultValue := none, index := none }

/-- Argument list of the `fix` subcommand in `get_args`:
`common_args(current_dir)` plus `no-backup`. -/
def fix_args (current_dir : String) : List ArgDecl :=
  common_args current_dir ++ [no_backup_flag]

/-- Argument list of the `compare` subcommand in `get_args`. -/
def compare_args : List ArgDecl :=
  [compare_input, no_color_flag, quiet_flag]

/-- One clap `SubCommand` declaration: name, visible short name, argument
list. -/
structure SubCmdDecl where
  name : String
  visibleAlias : Option String
  args : List ArgDecl
deriving Repr, DecidableEq

/-- Embedding of the `list` subcommand declaration in `get_args`. -/
def list_cmd : SubCmdDecl := { name := "list", visibleAlias := some "l", args := [] }

/-- Embedding of the `fix` subcommand declaration in `get_args`. -/
def fix_cmd (current_dir : String) : SubCmdDecl :=
  { name := "fix", visibleAlias := some "f", args := fix_args current_dir }

/-- Embedding of the `compare` subcommand declaration in `get_args`. -/
def compare_cmd : SubCmdDecl :=
  { name := "compare", visibleAlias := some "c", args := compare_args }

/-- The subcommands declared in `get_args`, in declaration order. -/
def subcommands (current_dir : String) : List SubCmdDecl :=
  [list_cmd, fix_cmd current_dir, compare_cmd]

/-! ## Parse results (the shape of `clap::ArgMatches` the router reads) -/

/-- The per-command part of a parse result: which boolean flags were seen
and, per value-taking argument, the list of values collected in order. -/
structure Matches where
  flags : List String
  values : List (String × List String)
deriving Repr, DecidableEq

def emptyMatches : Matches := ⟨[], []⟩

/-- Record one occurrence of a boolean flag. -/
def addFlag (m : Matches) (n : String) : Matches :=
  { m with flags := m.flags ++ [n] }

/-- Append a value to the entry of key `n`, creating the entry at the end
when absent. -/
def insertValue : List (String × List String) → String → String →
    List (String × List String)
  | [], n, v => [(n, [v])]
  | (k, vs) :: rest, n, v =>
    if k = n then (k, vs ++ [v]) :: rest else (k, vs) :: insertValue rest n v

/-- Record one value of a value-taking argument. -/
def addValue (m : Matches) (n v : String) : Matches :=
  { m with values := insertValue m.values n v }

/-- Values recorded under key `n` (empty when the key is absent). -/
def findValues : List (String × List String) → String → List String
  | [], _ => []
  | (k, vs) :: rest, n => if k = n then vs else findValues rest n

/-- Embedding of `ArgMatches::values_of` restricted to what the router
reads: the collected value list of one argument. -/
def values_of (m : Matches) (n : String) : List String :=
  findValues m.values n

/-- Embedding of `ArgMatches::is_present`: a flag occurrence or at least
one collected value. -/
def is_present (m : Matches) (n : String) : Bool :=
  m.flags.contains n || !(values_of m n).isEmpty

/-- The whole parse result: the root matches plus, when a subcommand was
selected, its canonical name and its own matches — the shape
`args.subcommand()` exposes to `main`. -/
structure ArgMatches where
  root : Matches
  sub : Option (String × Matches)
deriving Repr, DecidableEq

/-! ## The invocation parser

The parser itself is the external clap library, which is not part of
src/.  `scanA`, `processDecl`, `validateArgs` and `parseTokens` are
modelled from the spec: the Invocation Parser contract (match the raw
argument vector against the schema, yielding per-flag presence,
per-argument value lists and the selected subcommand, or a usage
failure; required-but-absent and minimum-count violations are parse
failures reported before any subcommand executes) and the CLI surface
(the subcommand is the first free word of the command line; defaults —
in particular the working-directory default of `input` — fill in when
the user supplies nothing). -/

/-- Classification of one raw token: a long-form flag token `--name`, a
short-form flag token `-name`, or a free word (anything else, including
`-` alone). -/
inductive TokKind where
  | long (s : String)
  | short (s : String)
  | free
deriving Repr, DecidableEq

/-- Classify one raw token by its leading hyphens. -/
def tokKind (t : String) : TokKind :=
  match t.data with
  | '-' :: '-' :: cs => .long (String.mk cs)
  | '-' :: c :: cs => .short (String.mk (c :: cs))
  | _ => .free

/-- A usage failure reported by the parser. -/
inductive ParseError where
  | unknownFlag (tok : String)
  | missingValue (arg : String)
  | unexpectedArgument (tok : String)
  | missingRequired (arg : String)
  | tooFewValues (arg : String)
deriving Repr, DecidableEq

/-- Find the declaration owning a long form. -/
def findLong (decls : List ArgDecl) (s : String) : Option ArgDecl :=
  decls.find? (fun d => d.long = some s)

/-- Find the declaration owning a short form. -/
def findShort (decls : List ArgDecl) (s : String) : Option ArgDecl :=
  decls.find? (fun d => d.short = some s)

/-- Find the positional declaration (no short and no long form). -/
def findPositional (decls : List ArgDecl) : Option ArgDecl :=
  decls.find? (fun d => d.short.isNone && d.long.isNone)

/-- Find a subcommand by name or visible short name, as the parser resolves
the first free word. -/
def findSub (subs : List SubCmdDecl) (s : String) : Option SubCmdDecl :=
  subs.find? (fun c => c.name = s || c.visibleAlias = some s)

/-- Modelled from the spec: one left-to-right scan of the token list
against a declaration list.  `pending` is the name of a value-taking
argument still waiting for its value; `seenPos` records whether a
positional value has already been consumed (the subcommand is only
recognised at the first free word).  Returns the collected matches and,
when a subcommand was selected, its canonical name with the remaining
tokens. -/
def scanA (decls : List ArgDecl) (subs : List SubCmdDecl) :
    List String → Option String → Matches → Bool →
    Except ParseError (Matches × Option (String × List String))
  | [], pending, acc, _ =>
    match pending with
    | some dname => .error (.missingValue dname)
    | none => .ok (acc, none)
  | t :: rest, pending, acc, seenPos =>
    match pending with
    | some dname =>
      match tokKind t with
      | .long _ => .error (.missingValue dname)
      | .short _ => .error (.missingValue dname)
      | .free => scanA decls subs rest none (addValue acc dname t) seenPos
    | none =>
      match tokKind t with
      | .long s =>
        match findLong decls s with
        | none => .error (.unknownFlag t)
        | some d =>
          if d.takesValue then
            scanA decls subs rest (some d.name) acc seenPos
          else
            scanA decls subs rest none (addFlag acc d.name) seenPos
      | .short s =>
        match findShort decls s with
        | none => .error (.unknownFlag t)
        | some d =>
          if d.takesValue then
            scanA decls subs rest (some d.name) acc seenPos
          else
            scanA decls subs rest none (addFlag acc d.name) seenPos
      | .free =>
        match seenPos, findSub subs t with
        | true, _ =>
          match findPositional decls with
          | none => .error (.unexpectedArgument t)
          | some d => scanA decls subs rest none (addValue acc d.name t) true
        | false, some sc => .ok (acc, some (sc.name, rest))
        | false, none =>
          match findPositional decls with
          | none => .error (.unexpectedArgument t)
          | some d => scanA decls subs rest none (addValue acc d.name t) true

/-- Modelled from the spec: post-scan validation of one declaration —
fill in the default when the argument is absent, report a missing
required argument, and enforce the minimum value count. -/
def processDecl (m : Matches) (d : ArgDecl) : Except ParseError Matches :=
  if values_of m d.name = [] ∧ d.name ∉ m.flags then
    match d.defaultValue with
    | some dv => .ok (addValue m d.name dv)
    | none =>
      if d.required then .error (.missingRequired d.name) else .ok m
  else
    match d.minValues with
    | some k =>
      if (values_of m d.name).length < k then .error (.tooFewValues d.name)
      else .ok m
    | none => .ok m

/-- Modelled from the spec: validate every declaration in order. -/
def validateArgs (m : Matches) : List ArgDecl → Except ParseError Matches
  | [] => .ok m
  | d :: rest =>
    match processDecl m d with
    | .error e => .error e
    | .ok m2 => validateArgs m2 rest

/-- Names of the value-carrying arguments of a declaration list: those
that take a value and the positional ones.  Only these names can ever
receive collected values during a scan. -/
def valueNames (decls : List ArgDecl) : List String :=
  (decls.filter (fun d => d.takesValue || (d.short.isNone && d.long.isNone))).map
    ArgDecl.name

/-- The token `t` is, under `decls`, a flag occurrence of the boolean
argument named `n`: a long or short form resolving to a declaration
named `n` that takes no value. -/
def flagTokenFor (decls : List ArgDecl) (t : String) (n : String) : Prop :=
  (∃ s d, tokKind t = TokKind.long s ∧ findLong decls s = some d ∧
    d.takesValue = false ∧ d.name = n) ∨
  (∃ s d, tokKind t = TokKind.short s ∧ findShort decls s = some d ∧
    d.takesValue = false ∧ d.name = n)

/-- Argument list of a subcommand, by canonical name. -/
def argsOfSub (current_dir : String) (name : String) : List ArgDecl :=
  if name = "fix" then fix_args current_dir
  else if name = "compare" then compare_args
  else []

/-- Modelled from the spec: the whole invocation parser — scan the
tokens against the root schema of `get_args`, validate the root
matches, then scan and validate the selected subcommand's tokens
against its own schema. -/
def parseTokens (current_dir : String) (tokens : List String) :
    Except ParseError ArgMatches :=
  match scanA (common_args current_dir) (subcommands current_dir)
      tokens none emptyMatches false with
  | .error e => .error e
  | .ok (rootRaw, subInfo) =>
    match validateArgs rootRaw (common_args current_dir) with
    | .error e => .error e
    | .ok rootM =>
      match subInfo with
      | none => .ok ⟨rootM, none⟩
      | some (name, rest) =>
        match scanA (argsOfSub current_dir name) [] rest none
            emptyMatches true with
        | .error e => .error e
        | .ok (subRaw, _) =>
          match validateArgs subRaw (argsOfSub current_dir name) with
          | .error e => .error e
          | .ok subM => .ok ⟨rootM, some (name, subM)⟩

/-! ## The router (embedding of `main` and `disable_color_output`)

The four collaborators live outside src/; `main` only consumes their
outcomes, so a run is parametrised by them, exactly the contracts the
spec states: `check` yields a warning count, `fix` yields unit, `compare`
yields a warning sequence (each of the three may instead fail with a
message propagated by `?`), and `available_check_names` is an infallible
name sequence. -/

/-- The outcomes the four external collaborators return to `main`. -/
structure Collab where
  check : Except String Nat
  fix : Except String Unit
  compare : Except String (List String)
  available_check_names : List String
deriving Repr, DecidableEq

/-- A record of one collaborator call `main` performed, with the
arguments it passed. -/
inductive Invoked where
  | check (args : ArgMatches) (dir : String)
  | fix (args : Matches) (dir : String)
  | available_check_names
  | compare (args : Matches) (dir : String)
deriving Repr, DecidableEq

/-- Observable outcome of one run: the process exit code, the lines
printed to standard output and to the error stream, every
`set_override` argument passed to the color control (in order), the
collaborator calls performed (in order), and the error message `main`
propagated, when any. -/
structure RunResult where
  exitCode : Nat
  stdout : List String
  stderr : List String
  colorEvents : List Bool
  invocations : List Invoked
  errMsg : Option String
deriving Repr, DecidableEq

/-- Embedding of `disable_color_output`: when `no-color` is present in
the given matches, one `set_override(false)` call is made, otherwise
none. -/
def disable_color_output (m : Matches) : List Bool :=
  if is_present m "no-color" then [false] else []

/-- Embedding of the body of `main` after parsing: apply
`disable_color_output` to the root matches, dispatch on
`args.subcommand()`, call the collaborator of the selected path, and map
its outcome to the exit code (a propagated failure exits 1 carrying the
failure's message, as a `Result` returning `main` does). -/
def runMain (current_dir : String) (args : ArgMatches) (c : Collab) :
    RunResult :=
  let rootColor := disable_color_output args.root
  match args.sub with
  | none =>
    match c.check with
    | .error e =>
      { exitCode := 1, stdout := [], stderr := [], colorEvents := rootColor,
        invocations := [.check args current_dir], errMsg := some e }
    | .ok total_warnings =>
      { exitCode := if total_warnings = 0 then 0 else 1, stdout := [],
        stderr := [], colorEvents := rootColor,
        invocations := [.check args current_dir], errMsg := none }
  | some (name, m) =>
    if name = "fix" then
      match c.fix with
      | .error e =>
        { exitCode := 1, stdout := [], stderr := [], colorEvents := rootColor,
          invocations := [.fix m current_dir], errMsg := some e }
      | .ok _ =>
        { exitCode := 0, stdout := [], stderr := [], colorEvents := rootColor,
          invocations := [.fix m current_dir], errMsg := none }
    else if name = "list" then
      { exitCode := 0, stdout := c.available_check_names, stderr := [],
        colorEvents := rootColor, invocations := [.available_check_names],
        errMsg := none }
    else if name = "compare" then
      let events := rootColor ++ disable_color_output m
      match c.compare with
      | .error e =>
        { exitCode := 1, stdout := [], stderr := [], colorEvents := events,
          invocations := [.compare m current_dir], errMsg := some e }
      | .ok warnings =>
        { exitCode := if warnings.isEmpty then 0 else 1, stdout := [],
          stderr := [], colorEvents := events,
          invocations := [.compare m current_dir], errMsg := none }
    else
      { exitCode := 1, stdout := [], stderr := ["unknown command"],
        colorEvents := rootColor, invocations := [], errMsg := none }

/-- A full run: parse the raw tokens with the schema of `get_args`; a
usage failure terminates with exit code 1 before any collaborator is
invoked, otherwise the router runs on the parse result. -/
def runCli (current_dir : String) (tokens : List String) (c : Collab) :
    RunResult :=
  match parseTokens current_dir tokens with
  | .error _ =>
    { exitCode := 1, stdout := [], stderr := ["usage error"],
      colorEvents := [], invocations := [], errMsg := none }
  | .ok args => runMain current_dir args c

/-! ## Concrete fixtures used by witnesses and counterexamples -/

/-- A parse result with no subcommand and the defaulted input. -/
def argsNoSub : ArgMatches := ⟨⟨[], [("input", ["/cwd"])]⟩, none⟩

/-- Collaborators that all succeed with the empty outcome. -/
def collabOk : Collab := ⟨.ok 0, .ok (), .ok [], ["name_a", "name_b"]⟩

/-- Collaborators that all fail with the same message. -/
def collabErr : Collab :=
  ⟨.error "io error", .error "io error", .error "io error", []⟩

/-- Collaborators whose check finds three warnings and whose compare
finds one. -/
def collabWarn : Collab := ⟨.ok 3, .ok (), .ok ["KEY missing"], []⟩

/-- A parse result for a run whose single free word is "bogus". -/
def argsBogus : ArgMatches := ⟨⟨[], [("input", ["bogus"])]⟩, none⟩

/-- Fix-subcommand matches carrying the no-backup flag and one input. -/
def mFix : Matches := ⟨["no-backup"], [("input", [".env"])]⟩

/-- A parse result on the fix path with the matches above. -/
def argsFix : ArgMatches := ⟨⟨[], []⟩, some ("fix", mFix)⟩

/-- The parse result of `fix --no-backup .env` with working directory
`/cwd`. -/
def argsFixParsed : ArgMatches :=
  ⟨⟨[], [("input", ["/cwd"])]⟩, some ("fix", mFix)⟩

/-- The parse result of `fix .env` with working directory `/cwd`. -/
def argsFixDotenv : ArgMatches :=
  ⟨⟨[], [("input", ["/cwd"])]⟩, some ("fix", ⟨[], [("input", [".env"])]⟩)⟩

/-! ## Theorems -/

/-- C1: on a run with no subcommand, the check collaborator is invoked
with the constructed invocation context (the root matches and the
current directory), and the exit code is 0 when the returned warning
count is 0 and 1 when it is positive. -/
theorem check_path_exit (current_dir : String) (args : ArgMatches)
    (c : Collab) (n : Nat) (hsub : args.sub = none)
    (hc : c.check = .ok n) :
    (runMain current_dir args c).invocations =
      [Invoked.check args current_dir] ∧
    (runMain current_dir args c).exitCode = (if n = 0 then 0 else 1) := by
  simp [runMain, hsub, hc]

/-- Witness for C1 at a concrete run: no subcommand, zero warnings. -/
theorem check_path_exit_witness :
    (runMain "/cwd" argsNoSub collabOk).invocations =
      [Invoked.check argsNoSub "/cwd"] ∧
    (runMain "/cwd" argsNoSub collabOk).exitCode =
      (if (0 : Nat) = 0 then 0 else 1) :=
  check_path_exit "/cwd" argsNoSub collabOk 0 rfl rfl

/-- C3: on a compare run, the compare collaborator is invoked with the
compare matches and the current directory, the exit code is 0 exactly
when the returned warning sequence is empty, and the compare schema is
restricted to `input`, `no-color` and `quiet`. -/
theorem compare_path_exit (current_dir : String) (args : ArgMatches)
    (m : Matches) (c : Collab) (ws : List String)
    (hsub : args.sub = some ("compare", m)) (hc : c.compare = .ok ws) :
    (runMain current_dir args c).invocations =
      [Invoked.compare m current_dir] ∧
    (runMain current_dir args c).exitCode = (if ws.isEmpty then 0 else 1) ∧
    compare_args.map ArgDecl.name = ["input", "no-color", "quiet"] := by
  refine ⟨?_, ?_, by decide⟩ <;> simp [runMain, hsub, hc]

/-- Witness for C3 at a concrete run: one mismatch warning, exit 1. -/
theorem compare_path_exit_witness :
    (runMain "/cwd" ⟨⟨[], []⟩,
        some ("compare", ⟨[], [("input", ["a.env", "b.env"])]⟩)⟩
        collabWarn).invocations =
      [Invoked.compare ⟨[], [("input", ["a.env", "b.env"])]⟩ "/cwd"] ∧
    (runMain "/cwd" ⟨⟨[], []⟩,
        some ("compare", ⟨[], [("input", ["a.env", "b.env"])]⟩)⟩
        collabWarn).exitCode =
      (if (["KEY missing"] : List String).isEmpty then 0 else 1) ∧
    compare_args.map ArgDecl.name = ["input", "no-color", "quiet"] :=
  compare_path_exit "/cwd"
    ⟨⟨[], []⟩, some ("compare", ⟨[], [("input", ["a.env", "b.env"])]⟩)⟩
    ⟨[], [("input", ["a.env", "b.env"])]⟩ collabWarn ["KEY missing"] rfl rfl

/-- C4: on a list run, the available-check-names collaborator is invoked
with no context, each returned name is emitted as one standard-output
line in the returned order, and the exit code is 0. -/
theorem list_path_output (current_dir : String) (args : ArgMatches)
    (m : Matches) (c : Collab) (hsub : args.sub = some ("list", m)) :
    (runMain current_dir args c).stdout = c.available_check_names ∧
    (runMain current_dir args c).exitCode = 0 ∧
    (runMain current_dir args c).invocations =
      [Invoked.available_check_names] := by
  simp [runMain, hsub]

/-- Witness for C4 at a concrete run. -/
theorem list_path_output_witness :
    (runMain "/cwd" ⟨⟨[], []⟩, some ("list", ⟨[], []⟩)⟩ collabOk).stdout =
      collabOk.available_check_names ∧
    (runMain "/cwd" ⟨⟨[], []⟩, some ("list", ⟨[], []⟩)⟩
        collabOk).exitCode = 0 ∧
    (runMain "/cwd" ⟨⟨[], []⟩, some ("list", ⟨[], []⟩)⟩
        collabOk).invocations = [Invoked.available_check_names] :=
  list_path_output "/cwd" ⟨⟨[], []⟩, some ("list", ⟨[], []⟩)⟩ ⟨[], []⟩
    collabOk rfl

/-- C5: on a run whose subcommand string matches no known route, no
collaborator is invoked, the diagnostic "unknown command" is emitted to
the error stream, and the exit code is 1. -/
theorem unknown_command_path (current_dir : String) (args : ArgMatches)
    (name : String) (m : Matches) (c : Collab)
    (hsub : args.sub = some (name, m)) (hfix : name ≠ "fix")
    (hlist : name ≠ "list") (hcompare : name ≠ "compare") :
    (runMain current_dir args c).invocations = [] ∧
    (runMain current_dir args c).stderr = ["unknown command"] ∧
    (runMain current_dir args c).exitCode = 1 := by
  simp [runMain, hsub, hfix, hlist, hcompare]

/-- Witness for C5 at the subcommand string "bogus". -/
theorem unknown_command_path_witness :
    (runMain "/cwd" ⟨⟨[], []⟩, some ("bogus", ⟨[], []⟩)⟩
        collabOk).invocations = [] ∧
    (runMain "/cwd" ⟨⟨[], []⟩, some ("bogus", ⟨[], []⟩)⟩
        collabOk).stderr = ["unknown command"] ∧
    (runMain "/cwd" ⟨⟨[], []⟩, some ("bogus", ⟨[], []⟩)⟩
        collabOk).exitCode = 1 :=
  unknown_command_path "/cwd" ⟨⟨[], []⟩, some ("bogus", ⟨[], []⟩)⟩ "bogus"
    ⟨[], []⟩ collabOk rfl (by decide) (by decide) (by decide)

/-- C8: a failure returned by an invoked collaborator (check, fix or
compare) aborts the run before the path's exit-code mapping applies:
the process exits 1 and the failure's message is surfaced unmodified. -/
theorem collaborator_failure_aborts (current_dir : String)
    (args : ArgMatches) (c : Collab) (e : String) :
    (args.sub = none → c.check = .error e →
      (runMain current_dir args c).exitCode = 1 ∧
      (runMain current_dir args c).errMsg = some e) ∧
    (∀ m : Matches, args.sub = some ("fix", m) → c.fix = .error e →
      (runMain current_dir args c).exitCode = 1 ∧
      (runMain current_dir args c).errMsg = some e) ∧
    (∀ m : Matches, args.sub = some ("compare", m) → c.compare = .error e →
      (runMain current_dir args c).exitCode = 1 ∧
      (runMain current_dir args c).errMsg = some e) := by
  refine ⟨fun hsub hc => ?_, fun m hsub hc => ?_, fun m hsub hc => ?_⟩ <;>
    simp [runMain, hsub, hc]

/-- Witness for C8 at a concrete failing check run. -/
theorem collaborator_failure_aborts_witness :
    (runMain "/cwd" argsNoSub collabErr).exitCode = 1 ∧
    (runMain "/cwd" argsNoSub collabErr).errMsg = some "io error" :=
  (collaborator_failure_aborts "/cwd" argsNoSub collabErr "io error").1
    rfl rfl

/-- C2 as stated is false: on the compare path the output policy is not
applied exactly once — it is applied twice, once with the root matches
and once with the compare matches.  Concrete refuting run:
`--no-color compare --no-color a.env b.env` is on the compare path (the
compare collaborator is the one invoked) and performs two
`set_override(false)` applications. -/
theorem output_policy_counterexample :
    (runCli "/cwd" ["--no-color", "compare", "--no-color", "a.env", "b.env"]
        collabOk).invocations =
      [Invoked.compare ⟨["no-color"], [("input", ["a.env", "b.env"])]⟩
        "/cwd"] ∧
    (runCli "/cwd" ["--no-color", "compare", "--no-color", "a.env", "b.env"]
        collabOk).colorEvents = [false, false] ∧
    (runCli "/cwd" ["--no-color", "compare", "--no-color", "a.env", "b.env"]
        collabOk).colorEvents.length ≠ 1 := by
  decide

/-- C2 amended: on every run the output policy is applied once with the
root matches' no-color flag, and on the compare path a second time with
the compare matches' own no-color flag; each application reads only its
own matches (the two flags are independent, not accumulated) and only
ever disables color. -/
theorem output_policy_applications (current_dir : String)
    (args : ArgMatches) (c : Collab) :
    (runMain current_dir args c).colorEvents =
      (if is_present args.root "no-color" then [false] else []) ++
      (match args.sub with
       | some (name, m) =>
         if name = "compare" then
           (if is_present m "no-color" then [false] else [])
         else []
       | none => []) := by
  obtain ⟨root, sub⟩ := args
  cases sub with
  | none => cases hc : c.check <;> simp [runMain, hc, disable_color_output]
  | some p =>
    obtain ⟨name, m⟩ := p
    by_cases hfix : name = "fix"
    · cases hc : c.fix <;>
        simp [runMain, hfix, hc, disable_color_output]
    · by_cases hlist : name = "list"
      · simp [runMain, hfix, hlist, disable_color_output]
      · by_cases hcompare : name = "compare"
        · cases hc : c.compare <;>
            simp [runMain, hfix, hlist, hcompare, hc, disable_color_output]
        · simp [runMain, hfix, hlist, hcompare, disable_color_output]


/-! ## Parser lemmas -/

theorem findValues_insertValue (l : List (String × List String))
    (n v n' : String) :
    findValues (insertValue l n v) n' =
      if n' = n then findValues l n ++ [v] else findValues l n' := by
  induction l with
  | nil =>
    simp only [insertValue, findValues]
    by_cases h : n' = n
    · subst h; simp
    · have h2 : ¬ (n = n') := fun hh => h hh.symm
      rw [if_neg h2, if_neg h]
  | cons p rest ih =>
    obtain ⟨k, vs⟩ := p
    by_cases hk : k = n
    · subst hk
      simp only [insertValue, if_pos rfl, findValues]
      by_cases h : k = n'
      · subst h; simp
      · have h2 : ¬ (n' = k) := fun hh => h hh.symm
        simp only [if_neg h, if_neg h2]
    · simp only [insertValue, if_neg hk, findValues]
      by_cases h : k = n'
      · subst h
        simp [if_neg hk]
      · simp only [if_neg h, ih, if_neg hk]

theorem values_of_addValue (m : Matches) (n v n' : String) :
    values_of (addValue m n v) n' =
      if n' = n then values_of m n ++ [v] else values_of m n' := by
  simp [values_of, addValue, findValues_insertValue]

theorem values_of_addFlag (m : Matches) (n n' : String) :
    values_of (addFlag m n) n' = values_of m n' := rfl

theorem scanA_seen_true_no_sub (decls : List ArgDecl)
    (subs : List SubCmdDecl) (ts : List String) (pending : Option String)
    (acc : Matches) (m : Matches) (s : Option (String × List String))
    (h : scanA decls subs ts pending acc true = .ok (m, s)) : s = none := by
  induction ts generalizing pending acc with
  | nil =>
    cases pending <;> simp [scanA] at h
    exact h.2.symm
  | cons t rest ih =>
    cases pending with
    | some dname =>
      cases hk : tokKind t with
      | long s => simp [scanA, hk] at h
      | short s => simp [scanA, hk] at h
      | free =>
        simp only [scanA, hk] at h
        exact ih none _ h
    | none =>
      cases hk : tokKind t with
      | long s =>
        simp only [scanA, hk] at h
        cases hf : findLong decls s with
        | none => simp [hf] at h
        | some d =>
          simp only [hf] at h
          by_cases ht : d.takesValue
          · rw [if_pos ht] at h; exact ih _ _ h
          · rw [if_neg ht] at h; exact ih none _ h
      | short s =>
        simp only [scanA, hk] at h
        cases hf : findShort decls s with
        | none => simp [hf] at h
        | some d =>
          simp only [hf] at h
          by_cases ht : d.takesValue
          · rw [if_pos ht] at h; exact ih _ _ h
          · rw [if_neg ht] at h; exact ih none _ h
      | free =>
        simp only [scanA, hk] at h
        cases hp : findPositional decls with
        | none => simp [hp] at h
        | some d =>
          simp only [hp] at h
          exact ih none _ h

theorem scanA_flags_mono (decls : List ArgDecl) (subs : List SubCmdDecl)
    (ts : List String) :
    ∀ pending acc seen m s,
      scanA decls subs ts pending acc seen = .ok (m, s) →
      ∀ n, n ∈ acc.flags → n ∈ m.flags := by
  induction ts with
  | nil =>
    intro pending acc seen m s h n hn
    cases pending <;> simp [scanA] at h
    rw [← h.1]; exact hn
  | cons t rest ih =>
    intro pending acc seen m s h n hn
    cases pending with
    | some dname =>
      cases hk : tokKind t with
      | long s2 => simp [scanA, hk] at h
      | short s2 => simp [scanA, hk] at h
      | free =>
        simp only [scanA, hk] at h
        exact ih none _ seen m s h n hn
    | none =>
      cases hk : tokKind t with
      | long s2 =>
        simp only [scanA, hk] at h
        cases hf : findLong decls s2 with
        | none => simp [hf] at h
        | some d =>
          simp only [hf] at h
          split at h
          · exact ih _ _ seen m s h n hn
          · exact ih none _ seen m s h n (List.mem_append_left _ hn)
      | short s2 =>
        simp only [scanA, hk] at h
        cases hf : findShort decls s2 with
        | none => simp [hf] at h
        | some d =>
          simp only [hf] at h
          split at h
          · exact ih _ _ seen m s h n hn
          · exact ih none _ seen m s h n (List.mem_append_left _ hn)
      | free =>
        cases seen with
        | true =>
          simp only [scanA, hk] at h
          cases hp : findPositional decls with
          | none => simp [hp] at h
          | some d =>
            simp only [hp] at h
            exact ih none _ true m s h n hn
        | false =>
          simp only [scanA, hk] at h
          cases hs : findSub subs t with
          | some sc =>
            simp only [hs] at h
            simp at h
            rw [← h.1]; exact hn
          | none =>
            simp only [hs] at h
            cases hp : findPositional decls with
            | none => simp [hp] at h
            | some d =>
              simp only [hp] at h
              exact ih none _ true m s h n hn



theorem scanA_flags_from (decls : List ArgDecl) (subs : List SubCmdDecl)
    (ts : List String) :
    ∀ pending acc seen m s,
      scanA decls subs ts pending acc seen = .ok (m, s) →
      ∀ n, n ∈ m.flags →
        n ∈ acc.flags ∨ ∃ t ∈ ts, flagTokenFor decls t n := by
  induction ts with
  | nil =>
    intro pending acc seen m s h n hn
    cases pending <;> simp [scanA] at h
    rw [h.1]; exact Or.inl hn
  | cons t rest ih =>
    intro pending acc seen m s h n hn
    cases pending with
    | some dname =>
      cases hk : tokKind t with
      | long s2 => simp [scanA, hk] at h
      | short s2 => simp [scanA, hk] at h
      | free =>
        simp only [scanA, hk] at h
        rcases ih none _ seen m s h n hn with ha | ⟨t2, ht2, hft⟩
        · exact Or.inl ha
        · exact Or.inr ⟨t2, List.mem_cons_of_mem _ ht2, hft⟩
    | none =>
      cases hk : tokKind t with
      | long s2 =>
        simp only [scanA, hk] at h
        cases hf : findLong decls s2 with
        | none => simp [hf] at h
        | some d =>
          simp only [hf] at h
          split at h
          · rcases ih _ _ seen m s h n hn with ha | ⟨t2, ht2, hft⟩
            · exact Or.inl ha
            · exact Or.inr ⟨t2, List.mem_cons_of_mem _ ht2, hft⟩
          · rcases ih none _ seen m s h n hn with ha | ⟨t2, ht2, hft⟩
            · rcases List.mem_append.1 ha with ha2 | ha2
              · exact Or.inl ha2
              · refine Or.inr ⟨t, List.mem_cons_self _ _, Or.inl ⟨s2, d, hk, hf, ?_, ?_⟩⟩
                · next hnt => exact Bool.eq_false_iff.2 hnt
                · exact (List.mem_singleton.1 ha2).symm
            · exact Or.inr ⟨t2, List.mem_cons_of_mem _ ht2, hft⟩
      | short s2 =>
        simp only [scanA, hk] at h
        cases hf : findShort decls s2 with
        | none => simp [hf] at h
        | some d =>
          simp only [hf] at h
          split at h
          · rcases ih _ _ seen m s h n hn with ha | ⟨t2, ht2, hft⟩
            · exact Or.inl ha
            · exact Or.inr ⟨t2, List.mem_cons_of_mem _ ht2, hft⟩
          · rcases ih none _ seen m s h n hn with ha | ⟨t2, ht2, hft⟩
            · rcases List.mem_append.1 ha with ha2 | ha2
              · exact Or.inl ha2
              · refine Or.inr ⟨t, List.mem_cons_self _ _, Or.inr ⟨s2, d, hk, hf, ?_, ?_⟩⟩
                · next hnt => exact Bool.eq_false_iff.2 hnt
                · exact (List.mem_singleton.1 ha2).symm
            · exact Or.inr ⟨t2, List.mem_cons_of_mem _ ht2, hft⟩
      | free =>
        cases seen with
        | true =>
          simp only [scanA, hk] at h
          cases hp : findPositional decls with
          | none => simp [hp] at h
          | some d =>
            simp only [hp] at h
            rcases ih none _ true m s h n hn with ha | ⟨t2, ht2, hft⟩
            · exact Or.inl ha
            · exact Or.inr ⟨t2, List.mem_cons_of_mem _ ht2, hft⟩
        | false =>
          simp only [scanA, hk] at h
          cases hs : findSub subs t with
          | some sc =>
            simp only [hs] at h
            simp at h
            rw [← h.1] at hn; exact Or.inl hn
          | none =>
            simp only [hs] at h
            cases hp : findPositional decls with
            | none => simp [hp] at h
            | some d =>
              simp only [hp] at h
              rcases ih none _ true m s h n hn with ha | ⟨t2, ht2, hft⟩
              · exact Or.inl ha
              · exact Or.inr ⟨t2, List.mem_cons_of_mem _ ht2, hft⟩

theorem mem_values_addValue (m : Matches) (key t n v : String)
    (hv : v ∈ values_of m n) : v ∈ values_of (addValue m key t) n := by
  rw [values_of_addValue]
  by_cases hn : n = key
  · subst hn; rw [if_pos rfl]; exact List.mem_append_left _ hv
  · rw [if_neg hn]; exact hv

theorem mem_valueNames_of_takes {decls : List ArgDecl} {d : ArgDecl}
    (hd : d ∈ decls) (ht : d.takesValue = true) :
    d.name ∈ valueNames decls := by
  simp only [valueNames, List.mem_map]
  exact ⟨d, List.mem_filter.2 ⟨hd, by simp [ht]⟩, rfl⟩

theorem mem_valueNames_of_positional {decls : List ArgDecl} {d : ArgDecl}
    (hd : d ∈ decls) (hs : d.short.isNone = true) (hl : d.long.isNone = true) :
    d.name ∈ valueNames decls := by
  simp only [valueNames, List.mem_map]
  exact ⟨d, List.mem_filter.2 ⟨hd, by simp [hs, hl]⟩, rfl⟩

theorem scanA_flags_to (decls : List ArgDecl) (ts : List String) :
    ∀ pending acc seen m s,
      scanA decls [] ts pending acc seen = .ok (m, s) →
      ∀ n, (n ∈ acc.flags ∨ ∃ t ∈ ts, flagTokenFor decls t n) →
        n ∈ m.flags := by
  induction ts with
  | nil =>
    intro pending acc seen m s h n hn
    cases pending <;> simp [scanA] at h
    rcases hn with ha | ⟨t, ht, _⟩
    · rw [← h.1]; exact ha
    · simp at ht
  | cons t rest ih =>
    intro pending acc seen m s h n hn
    cases pending with
    | some dname =>
      cases hk : tokKind t with
      | long s2 => simp [scanA, hk] at h
      | short s2 => simp [scanA, hk] at h
      | free =>
        simp only [scanA, hk] at h
        refine ih none _ seen m s h n ?_
        rcases hn with ha | ⟨t2, ht2, hft⟩
        · exact Or.inl ha
        · rcases List.mem_cons.1 ht2 with rfl | ht3
          · rcases hft with ⟨s3, d3, hk3, _⟩ | ⟨s3, d3, hk3, _⟩ <;>
              rw [hk] at hk3 <;> simp at hk3
          · exact Or.inr ⟨t2, ht3, hft⟩
    | none =>
      cases hk : tokKind t with
      | long s2 =>
        simp only [scanA, hk] at h
        cases hf : findLong decls s2 with
        | none => simp [hf] at h
        | some d =>
          simp only [hf] at h
          split at h
          next htv =>
            refine ih _ _ seen m s h n ?_
            rcases hn with ha | ⟨t2, ht2, hft⟩
            · exact Or.inl ha
            · rcases List.mem_cons.1 ht2 with rfl | ht3
              · rcases hft with ⟨s3, d3, hk3, hf3, htv3, hn3⟩ |
                  ⟨s3, d3, hk3, hf3, htv3, hn3⟩
                · rw [hk] at hk3; injection hk3 with hs3; subst hs3
                  rw [hf] at hf3; injection hf3 with hd3; subst hd3
                  simp [htv] at htv3
                · rw [hk] at hk3; simp at hk3
              · exact Or.inr ⟨t2, ht3, hft⟩
          next htv =>
            refine ih none _ seen m s h n ?_
            rcases hn with ha | ⟨t2, ht2, hft⟩
            · exact Or.inl (List.mem_append_left _ ha)
            · rcases List.mem_cons.1 ht2 with rfl | ht3
              · rcases hft with ⟨s3, d3, hk3, hf3, htv3, hn3⟩ |
                  ⟨s3, d3, hk3, hf3, htv3, hn3⟩
                · rw [hk] at hk3; injection hk3 with hs3; subst hs3
                  rw [hf] at hf3; injection hf3 with hd3; subst hd3
                  subst hn3
                  exact Or.inl
                    (List.mem_append_right _ (List.mem_singleton.2 rfl))
                · rw [hk] at hk3; simp at hk3
              · exact Or.inr ⟨t2, ht3, hft⟩
      | short s2 =>
        simp only [scanA, hk] at h
        cases hf : findShort decls s2 with
        | none => simp [hf] at h
        | some d =>
          simp only [hf] at h
          split at h
          next htv =>
            refine ih _ _ seen m s h n ?_
            rcases hn with ha | ⟨t2, ht2, hft⟩
            · exact Or.inl ha
            · rcases List.mem_cons.1 ht2 with rfl | ht3
              · rcases hft with ⟨s3, d3, hk3, hf3, htv3, hn3⟩ |
                  ⟨s3, d3, hk3, hf3, htv3, hn3⟩
                · rw [hk] at hk3; simp at hk3
                · rw [hk] at hk3; injection hk3 with hs3; subst hs3
                  rw [hf] at hf3; injection hf3 with hd3; subst hd3
                  simp [htv] at htv3
              · exact Or.inr ⟨t2, ht3, hft⟩
          next htv =>
            refine ih none _ seen m s h n ?_
            rcases hn with ha | ⟨t2, ht2, hft⟩
            · exact Or.inl (List.mem_append_left _ ha)
            · rcases List.mem_cons.1 ht2 with rfl | ht3
              · rcases hft with ⟨s3, d3, hk3, hf3, htv3, hn3⟩ |
                  ⟨s3, d3, hk3, hf3, htv3, hn3⟩
                · rw [hk] at hk3; simp at hk3
                · rw [hk] at hk3; injection hk3 with hs3; subst hs3
                  rw [hf] at hf3; injection hf3 with hd3; subst hd3
                  subst hn3
                  exact Or.inl
                    (List.mem_append_right _ (List.mem_singleton.2 rfl))
              · exact Or.inr ⟨t2, ht3, hft⟩
      | free =>
        have hnosub : findSub [] t = none := rfl
        cases seen with
        | true =>
          simp only [scanA, hk] at h
          cases hp : findPositional decls with
          | none => simp [hp] at h
          | some d =>
            simp only [hp] at h
            refine ih none _ true m s h n ?_
            rcases hn with ha | ⟨t2, ht2, hft⟩
            · exact Or.inl ha
            · rcases List.mem_cons.1 ht2 with rfl | ht3
              · rcases hft with ⟨s3, d3, hk3, _⟩ | ⟨s3, d3, hk3, _⟩ <;>
                  rw [hk] at hk3 <;> simp at hk3
              · exact Or.inr ⟨t2, ht3, hft⟩
        | false =>
          simp only [scanA, hk, hnosub] at h
          cases hp : findPositional decls with
          | none => simp [hp] at h
          | some d =>
            simp only [hp] at h
            refine ih none _ true m s h n ?_
            rcases hn with ha | ⟨t2, ht2, hft⟩
            · exact Or.inl ha
            · rcases List.mem_cons.1 ht2 with rfl | ht3
              · rcases hft with ⟨s3, d3, hk3, _⟩ | ⟨s3, d3, hk3, _⟩ <;>
                  rw [hk] at hk3 <;> simp at hk3
              · exact Or.inr ⟨t2, ht3, hft⟩

theorem scanA_values_mono (decls : List ArgDecl) (subs : List SubCmdDecl)
    (ts : List String) :
    ∀ pending acc seen m s,
      scanA decls subs ts pending acc seen = .ok (m, s) →
      ∀ n v, v ∈ values_of acc n → v ∈ values_of m n := by
  induction ts with
  | nil =>
    intro pending acc seen m s h n v hv
    cases pending <;> simp [scanA] at h
    rw [← h.1]; exact hv
  | cons t rest ih =>
    intro pending acc seen m s h n v hv
    cases pending with
    | some dname =>
      cases hk : tokKind t with
      | long s2 => simp [scanA, hk] at h
      | short s2 => simp [scanA, hk] at h
      | free =>
        simp only [scanA, hk] at h
        exact ih none _ seen m s h n v (mem_values_addValue _ _ _ _ _ hv)
    | none =>
      cases hk : tokKind t with
      | long s2 =>
        simp only [scanA, hk] at h
        cases hf : findLong decls s2 with
        | none => simp [hf] at h
        | some d =>
          simp only [hf] at h
          split at h
          · exact ih _ _ seen m s h n v hv
          · exact ih none _ seen m s h n v hv
      | short s2 =>
        simp only [scanA, hk] at h
        cases hf : findShort decls s2 with
        | none => simp [hf] at h
        | some d =>
          simp only [hf] at h
          split at h
          · exact ih _ _ seen m s h n v hv
          · exact ih none _ seen m s h n v hv
      | free =>
        cases seen with
        | true =>
          simp only [scanA, hk] at h
          cases hp : findPositional decls with
          | none => simp [hp] at h
          | some d =>
            simp only [hp] at h
            exact ih none _ true m s h n v (mem_values_addValue _ _ _ _ _ hv)
        | false =>
          simp only [scanA, hk] at h
          cases hs : findSub subs t with
          | some sc =>
            simp only [hs] at h
            simp at h
            rw [← h.1]; exact hv
          | none =>
            simp only [hs] at h
            cases hp : findPositional decls with
            | none => simp [hp] at h
            | some d =>
              simp only [hp] at h
              exact ih none _ true m s h n v (mem_values_addValue _ _ _ _ _ hv)

theorem scanA_values_keys (decls : List ArgDecl) (subs : List SubCmdDecl)
    (ts : List String) :
    ∀ pending acc seen m s,
      scanA decls subs ts pending acc seen = .ok (m, s) →
      (∀ dn, pending = some dn → dn ∈ valueNames decls) →
      ∀ n, ¬ n ∈ valueNames decls → values_of m n = values_of acc n := by
  induction ts with
  | nil =>
    intro pending acc seen m s h _ n _
    cases pending <;> simp [scanA] at h
    rw [h.1]
  | cons t rest ih =>
    intro pending acc seen m s h hp n hn
    cases pending with
    | some dname =>
      cases hk : tokKind t with
      | long s2 => simp [scanA, hk] at h
      | short s2 => simp [scanA, hk] at h
      | free =>
        simp only [scanA, hk] at h
        have hne : n ≠ dname := fun hh => hn (hh ▸ hp dname rfl)
        rw [ih none _ seen m s h (by simp) n hn,
          values_of_addValue, if_neg hne]
    | none =>
      cases hk : tokKind t with
      | long s2 =>
        simp only [scanA, hk] at h
        cases hf : findLong decls s2 with
        | none => simp [hf] at h
        | some d =>
          simp only [hf] at h
          split at h
          next htv =>
            refine ih _ _ seen m s h ?_ n hn
            intro dn hdn
            injection hdn with hdn2
            subst hdn2
            exact mem_valueNames_of_takes (List.mem_of_find?_eq_some hf) htv
          next htv =>
            exact ih none _ seen m s h (by simp) n hn
      | short s2 =>
        simp only [scanA, hk] at h
        cases hf : findShort decls s2 with
        | none => simp [hf] at h
        | some d =>
          simp only [hf] at h
          split at h
          next htv =>
            refine ih _ _ seen m s h ?_ n hn
            intro dn hdn
            injection hdn with hdn2
            subst hdn2
            exact mem_valueNames_of_takes (List.mem_of_find?_eq_some hf) htv
          next htv =>
            exact ih none _ seen m s h (by simp) n hn
      | free =>
        cases seen with
        | true =>
          simp only [scanA, hk] at h
          cases hp2 : findPositional decls with
          | none => simp [hp2] at h
          | some d =>
            simp only [hp2] at h
            have hmem : d.name ∈ valueNames decls := by
              have hd := List.mem_of_find?_eq_some hp2
              have hpred := List.find?_some hp2
              rw [Bool.and_eq_true] at hpred
              exact mem_valueNames_of_positional hd hpred.1 hpred.2
            have hne : n ≠ d.name := fun hh => hn (hh ▸ hmem)
            rw [ih none _ true m s h (by simp) n hn,
              values_of_addValue, if_neg hne]
        | false =>
          simp only [scanA, hk] at h
          cases hs : findSub subs t with
          | some sc =>
            simp only [hs] at h
            simp at h
            rw [h.1]
          | none =>
            simp only [hs] at h
            cases hp2 : findPositional decls with
            | none => simp [hp2] at h
            | some d =>
              simp only [hp2] at h
              have hmem : d.name ∈ valueNames decls := by
                have hd := List.mem_of_find?_eq_some hp2
                have hpred := List.find?_some hp2
                rw [Bool.and_eq_true] at hpred
                exact mem_valueNames_of_positional hd hpred.1 hpred.2
              have hne : n ≠ d.name := fun hh => hn (hh ▸ hmem)
              rw [ih none _ true m s h (by simp) n hn,
                values_of_addValue, if_neg hne]

theorem processDecl_skip (m : Matches) (d : ArgDecl)
    (h1 : d.defaultValue = none) (h2 : d.required = false)
    (h3 : d.minValues = none) : processDecl m d = .ok m := by
  simp only [processDecl, h1, h2, h3]
  split <;> simp

theorem validateArgs_skip (ds : List ArgDecl) :
    ∀ m, (∀ d ∈ ds,
        d.defaultValue = none ∧ d.required = false ∧ d.minValues = none) →
      validateArgs m ds = .ok m := by
  induction ds with
  | nil => intro m _; rfl
  | cons d rest ih =>
    intro m h
    have hd := h d (List.mem_cons_self _ _)
    simp only [validateArgs, processDecl_skip m d hd.1 hd.2.1 hd.2.2]
    exact ih m (fun d2 hd2 => h d2 (List.mem_cons_of_mem _ hd2))

theorem processDecl_flags (m : Matches) (d : ArgDecl) (m2 : Matches)
    (h : processDecl m d = .ok m2) : m2.flags = m.flags := by
  unfold processDecl at h
  split at h
  · split at h
    · injection h with h2; rw [← h2]; rfl
    · split at h
      · exact absurd h (by simp)
      · injection h with h2; rw [← h2]
  · split at h
    · split at h
      · exact absurd h (by simp)
      · injection h with h2; rw [← h2]
    · injection h with h2; rw [← h2]

theorem validateArgs_flags (ds : List ArgDecl) :
    ∀ m m2, validateArgs m ds = .ok m2 → m2.flags = m.flags := by
  induction ds with
  | nil => intro m m2 h; simp [validateArgs] at h; rw [h]
  | cons d rest ih =>
    intro m m2 h
    simp only [validateArgs] at h
    cases hpd : processDecl m d with
    | error e => simp [hpd] at h
    | ok m3 =>
      simp only [hpd] at h
      rw [ih m3 m2 h, processDecl_flags m d m3 hpd]

theorem processDecl_values (m : Matches) (d : ArgDecl) (m2 : Matches)
    (n : String) (h : processDecl m d = .ok m2)
    (hn : d.defaultValue = none ∨ d.name ≠ n) :
    values_of m2 n = values_of m n := by
  unfold processDecl at h
  split at h
  · split at h
    next dv hdv =>
      injection h with h2
      rcases hn with hd | hd
      · rw [hdv] at hd; exact absurd hd (by simp)
      · rw [← h2, values_of_addValue, if_neg (fun hh => hd hh.symm)]
    next hdv =>
      split at h
      · exact absurd h (by simp)
      · injection h with h2; rw [← h2]
  · split at h
    · split at h
      · exact absurd h (by simp)
      · injection h with h2; rw [← h2]
    · injection h with h2; rw [← h2]

theorem validateArgs_values (ds : List ArgDecl) :
    ∀ m m2 n, validateArgs m ds = .ok m2 →
      (∀ d ∈ ds, d.defaultValue = none ∨ d.name ≠ n) →
      values_of m2 n = values_of m n := by
  induction ds with
  | nil => intro m m2 n h _; simp [validateArgs] at h; rw [h]
  | cons d rest ih =>
    intro m m2 n h hds
    simp only [validateArgs] at h
    cases hpd : processDecl m d with
    | error e => simp [hpd] at h
    | ok m3 =>
      simp only [hpd] at h
      rw [ih m3 m2 n h (fun d2 hd2 => hds d2 (List.mem_cons_of_mem _ hd2)),
        processDecl_values m d m3 n hpd (hds d (List.mem_cons_self _ _))]

theorem processDecl_values_mem (m : Matches) (d : ArgDecl) (m2 : Matches)
    (n v : String) (h : processDecl m d = .ok m2)
    (hv : v ∈ values_of m n) : v ∈ values_of m2 n := by
  unfold processDecl at h
  split at h
  · split at h
    · injection h with h2; rw [← h2]
      exact mem_values_addValue _ _ _ _ _ hv
    · split at h
      · exact absurd h (by simp)
      · injection h with h2; rw [← h2]; exact hv
  · split at h
    · split at h
      · exact absurd h (by simp)
      · injection h with h2; rw [← h2]; exact hv
    · injection h with h2; rw [← h2]; exact hv

theorem validateArgs_values_mem (ds : List ArgDecl) :
    ∀ m m2 n v, validateArgs m ds = .ok m2 →
      v ∈ values_of m n → v ∈ values_of m2 n := by
  induction ds with
  | nil => intro m m2 n v h hv; simp [validateArgs] at h; rw [← h]; exact hv
  | cons d rest ih =>
    intro m m2 n v h hv
    simp only [validateArgs] at h
    cases hpd : processDecl m d with
    | error e => simp [hpd] at h
    | ok m3 =>
      simp only [hpd] at h
      exact ih m3 m2 n v h (processDecl_values_mem m d m3 n v hpd hv)

theorem validateArgs_input_head (cwd : String) (ds : List ArgDecl)
    (hds : ∀ d ∈ ds,
      d.defaultValue = none ∧ d.required = false ∧ d.minValues = none)
    (m m2 : Matches) (hflags : "input" ∉ m.flags)
    (h : validateArgs m (input_arg cwd :: ds) = .ok m2) :
    values_of m2 "input" =
      (if values_of m "input" = [] then [cwd] else values_of m "input") := by
  have hpd : processDecl m (input_arg cwd) =
      .ok (if values_of m "input" = [] then addValue m "input" cwd else m) := by
    by_cases he : values_of m "input" = []
    · rw [if_pos he]
      unfold processDecl
      rw [if_pos ⟨he, hflags⟩]
      rfl
    · rw [if_neg he]
      unfold processDecl
      rw [if_neg (fun hc => he hc.1)]
      rfl
  simp only [validateArgs, hpd] at h
  rw [validateArgs_skip ds _ hds] at h
  injection h with h2
  rw [← h2]
  by_cases he : values_of m "input" = []
  · rw [if_pos he, if_pos he, values_of_addValue, if_pos rfl, he]
    rfl
  · rw [if_neg he, if_neg he]

theorem validateArgs_compare_err (m : Matches)
    (hlen : (values_of m "input").length < 2) :
    ∃ e, validateArgs m compare_args = .error e := by
  by_cases hc : values_of m "input" = [] ∧ "input" ∉ m.flags
  · refine ⟨ParseError.missingRequired "input", ?_⟩
    have hpd : processDecl m compare_input =
        .error (.missingRequired "input") := by
      unfold processDecl
      rw [show compare_input.name = "input" from rfl, if_pos hc]
      rfl
    simp [compare_args, validateArgs, hpd]
  · refine ⟨ParseError.tooFewValues "input", ?_⟩
    have hpd : processDecl m compare_input =
        .error (.tooFewValues "input") := by
      unfold processDecl
      rw [show compare_input.name = "input" from rfl, if_neg hc]
      rw [show compare_input.minValues = some 2 from rfl]
      show (if (values_of m "input").length < 2 then
          Except.error (ParseError.tooFewValues "input")
        else Except.ok m) = Except.error (ParseError.tooFewValues "input")
      rw [if_pos hlen]
    simp [compare_args, validateArgs, hpd]

theorem parseTokens_ok_elim (cwd : String) (tokens : List String)
    (args : ArgMatches) (h : parseTokens cwd tokens = .ok args) :
    ∃ raw subInfo rootM,
      scanA (common_args cwd) (subcommands cwd) tokens none emptyMatches false
        = .ok (raw, subInfo) ∧
      validateArgs raw (common_args cwd) = .ok rootM ∧
      args.root = rootM ∧
      ((subInfo = none ∧ args.sub = none) ∨
        (∃ name rest subRaw s2 subM,
          subInfo = some (name, rest) ∧
          scanA (argsOfSub cwd name) [] rest none emptyMatches true
            = .ok (subRaw, s2) ∧
          validateArgs subRaw (argsOfSub cwd name) = .ok subM ∧
          args.sub = some (name, subM))) := by
  unfold parseTokens at h
  cases hscan : scanA (common_args cwd) (subcommands cwd) tokens none
      emptyMatches false with
  | error e =>
    simp only [hscan] at h
    exact absurd h (by simp)
  | ok p =>
    obtain ⟨raw, subInfo⟩ := p
    simp only [hscan] at h
    cases hval : validateArgs raw (common_args cwd) with
    | error e =>
      simp only [hval] at h
      exact absurd h (by simp)
    | ok rootM =>
      simp only [hval] at h
      cases subInfo with
      | none =>
        refine ⟨raw, none, rootM, rfl, hval, ?_, Or.inl ⟨rfl, ?_⟩⟩
        · injection h with h2; rw [← h2]
        · injection h with h2; rw [← h2]
      | some p2 =>
        obtain ⟨name, rest⟩ := p2
        cases hscan2 : scanA (argsOfSub cwd name) [] rest none
            emptyMatches true with
        | error e =>
          simp only [hscan2] at h
          exact absurd h (by simp)
        | ok p3 =>
          obtain ⟨subRaw, s2⟩ := p3
          simp only [hscan2] at h
          cases hval2 : validateArgs subRaw (argsOfSub cwd name) with
          | error e =>
            simp only [hval2] at h
            exact absurd h (by simp)
          | ok subM =>
            simp only [hval2] at h
            injection h with h2
            refine ⟨raw, some (name, rest), rootM, rfl, hval, ?_,
              Or.inr ⟨name, rest, subRaw, s2, subM, rfl, hscan2, hval2, ?_⟩⟩
            · rw [← h2]
            · rw [← h2]

theorem tokKind_long_eq (t s : String) (h : tokKind t = TokKind.long s) :
    t = String.mk ('-' :: '-' :: s.data) := by
  unfold tokKind at h
  split at h
  next cs heq =>
    injection h with hs
    subst hs
    exact String.ext (by rw [heq])
  next => exact absurd h (by simp)
  next => exact absurd h (by simp)

theorem flagTokenFor_decl {decls : List ArgDecl} {t n : String}
    (h : flagTokenFor decls t n) :
    ∃ d ∈ decls, d.name = n ∧ d.takesValue = false := by
  rcases h with ⟨s, d, _, hf, htv, hn⟩ | ⟨s, d, _, hf, htv, hn⟩
  · exact ⟨d, List.mem_of_find?_eq_some hf, hn, htv⟩
  · exact ⟨d, List.mem_of_find?_eq_some hf, hn, htv⟩

theorem no_flagToken_input_common (cwd t : String) :
    ¬ flagTokenFor (common_args cwd) t "input" := by
  intro h
  obtain ⟨d, hd, hname, htv⟩ := flagTokenFor_decl h
  simp [common_args] at hd
  rcases hd with rfl | rfl | rfl | rfl | rfl | rfl <;>
    simp_all [input_arg, exclude_arg, skip_arg, recursive_arg,
      no_color_flag, quiet_flag]

theorem no_flagToken_input_fix (cwd t : String) :
    ¬ flagTokenFor (fix_args cwd) t "input" := by
  intro h
  obtain ⟨d, hd, hname, htv⟩ := flagTokenFor_decl h
  simp [fix_args, common_args] at hd
  rcases hd with rfl | rfl | rfl | rfl | rfl | rfl | rfl <;>
    simp_all [input_arg, exclude_arg, skip_arg, recursive_arg,
      no_color_flag, quiet_flag, no_backup_flag]

theorem flagToken_no_backup (cwd t : String)
    (h : flagTokenFor (fix_args cwd) t "no-backup") : t = "--no-backup" := by
  rcases h with ⟨s, d, hk, hf, htv, hn⟩ | ⟨s, d, hk, hf, htv, hn⟩
  · have hd := List.mem_of_find?_eq_some hf
    have hlong := List.find?_some hf
    rw [decide_eq_true_eq] at hlong
    simp [fix_args, common_args] at hd
    rcases hd with rfl | rfl | rfl | rfl | rfl | rfl | rfl
    · simp [input_arg] at hlong
    · simp [exclude_arg] at hn
    · simp [skip_arg] at hn
    · simp [recursive_arg] at hn
    · simp [no_color_flag] at hn
    · simp [quiet_flag] at hn
    · have hs : s = "no-backup" := by
        have : (no_backup_flag).long = some s := hlong
        simp [no_backup_flag] at this
        exact this.symm
      subst hs
      rw [tokKind_long_eq t _ hk]
  · have hd := List.mem_of_find?_eq_some hf
    have hshort := List.find?_some hf
    rw [decide_eq_true_eq] at hshort
    simp [fix_args, common_args] at hd
    rcases hd with rfl | rfl | rfl | rfl | rfl | rfl | rfl
    · simp [input_arg] at hshort
    · simp [exclude_arg] at hn
    · simp [skip_arg] at hn
    · simp [recursive_arg] at hn
    · simp [no_color_flag] at hn
    · simp [quiet_flag] at hn
    · simp [no_backup_flag] at hshort

theorem findSub_none (cwd w : String)
    (h1 : w ≠ "fix") (h2 : w ≠ "f") (h3 : w ≠ "list") (h4 : w ≠ "l")
    (h5 : w ≠ "compare") (h6 : w ≠ "c") :
    findSub (subcommands cwd) w = none := by
  rw [findSub, List.find?_eq_none]
  intro sc hsc
  simp [subcommands] at hsc
  rcases hsc with rfl | rfl | rfl <;>
    simp [list_cmd, fix_cmd, compare_cmd, Ne.symm h1, Ne.symm h2,
      Ne.symm h3, Ne.symm h4, Ne.symm h5, Ne.symm h6]

theorem runMain_check_invocations (cwd : String) (args : ArgMatches)
    (c : Collab) (h : args.sub = none) :
    (runMain cwd args c).invocations = [Invoked.check args cwd] := by
  cases hc : c.check <;> simp [runMain, h, hc]

/-! ## Parser-level claims -/

/-- C6: after construction the context's `inputs` sequence is never
empty, on the check path and on the fix path alike: it equals the
scanned user-supplied paths of that path's own matches when any were
given, and the single-element working-directory list otherwise. -/
theorem inputs_default_nonempty (cwd : String) (tokens : List String)
    (args : ArgMatches) (raw : Matches)
    (subInfo : Option (String × List String))
    (hscan : scanA (common_args cwd) (subcommands cwd) tokens none
      emptyMatches false = .ok (raw, subInfo))
    (hparse : parseTokens cwd tokens = .ok args) :
    values_of args.root "input" =
      (if values_of raw "input" = [] then [cwd]
       else values_of raw "input") ∧
    values_of args.root "input" ≠ [] ∧
    (∀ m : Matches, args.sub = some ("fix", m) →
      ∃ rest subRaw s2,
        subInfo = some ("fix", rest) ∧
        scanA (fix_args cwd) [] rest none emptyMatches true
          = .ok (subRaw, s2) ∧
        values_of m "input" =
          (if values_of subRaw "input" = [] then [cwd]
           else values_of subRaw "input") ∧
        values_of m "input" ≠ []) := by
  obtain ⟨raw2, subInfo2, rootM, hscan2, hval, hroot, hrest⟩ :=
    parseTokens_ok_elim cwd tokens args hparse
  rw [hscan] at hscan2
  injection hscan2 with hp
  injection hp with hraw hsub
  subst hraw
  subst hsub
  have hflags : "input" ∉ raw.flags := by
    intro hmem
    rcases scanA_flags_from _ _ _ _ _ _ _ _ hscan _ hmem with
      ha | ⟨t, _, hft⟩
    · simp [emptyMatches] at ha
    · exact no_flagToken_input_common cwd t hft
  have hce : common_args cwd = input_arg cwd ::
      [exclude_arg, skip_arg, recursive_arg, no_color_flag, quiet_flag] := rfl
  rw [hce] at hval
  have hchar := validateArgs_input_head cwd _ (by decide) raw rootM hflags hval
  refine ⟨?_, ?_, ?_⟩
  · rw [hroot]; exact hchar
  · rw [hroot, hchar]
    by_cases he : values_of raw "input" = []
    · rw [if_pos he]; simp
    · rw [if_neg he]; exact he
  · intro m hm
    rcases hrest with ⟨_, hnone⟩ | ⟨name, rest, subRaw, s2, subM, hsi,
      hscan3, hval2, hsub2⟩
    · rw [hnone] at hm; exact absurd hm (by simp)
    · rw [hsub2] at hm
      injection hm with hm2
      injection hm2 with hname hmm
      subst hname
      subst hmm
      rw [show argsOfSub cwd "fix" = fix_args cwd from rfl] at hscan3
      have hflags2 : "input" ∉ subRaw.flags := by
        intro hmem
        rcases scanA_flags_from _ _ _ _ _ _ _ _ hscan3 _ hmem with
          ha | ⟨t, _, hft⟩
        · simp [emptyMatches] at ha
        · exact no_flagToken_input_fix cwd t hft
      have hfe : argsOfSub cwd "fix" = input_arg cwd ::
          [exclude_arg, skip_arg, recursive_arg, no_color_flag, quiet_flag,
           no_backup_flag] := rfl
      rw [hfe] at hval2
      have hchar2 := validateArgs_input_head cwd _ (by decide) subRaw subM
        hflags2 hval2
      refine ⟨rest, subRaw, s2, hsi, hscan3, hchar2, ?_⟩
      rw [hchar2]
      by_cases he : values_of subRaw "input" = []
      · rw [if_pos he]; simp
      · rw [if_neg he]; exact he

/-- Witness for C6 at the concrete invocation `fix .env`, exercising
both the root and the fix-path characterizations. -/
theorem inputs_default_nonempty_witness :
    values_of argsFixDotenv.root "input" =
      (if values_of emptyMatches "input" = [] then ["/cwd"]
       else values_of emptyMatches "input") ∧
    values_of argsFixDotenv.root "input" ≠ [] ∧
    (∀ m : Matches, argsFixDotenv.sub = some ("fix", m) →
      ∃ rest subRaw s2,
        (some ("fix", [".env"]) : Option (String × List String))
          = some ("fix", rest) ∧
        scanA (fix_args "/cwd") [] rest none emptyMatches true
          = .ok (subRaw, s2) ∧
        values_of m "input" =
          (if values_of subRaw "input" = [] then ["/cwd"]
           else values_of subRaw "input") ∧
        values_of m "input" ≠ []) :=
  inputs_default_nonempty "/cwd" ["fix", ".env"] argsFixDotenv emptyMatches
    (some ("fix", [".env"])) rfl rfl

/-- C7: a compare invocation with fewer than two positional file paths is
rejected at parse time with a usage failure, so the compare collaborator
is never invoked; the compare schema declares a required positional list
with a minimum of two values and contains only `input`, `no-color` and
`quiet` (no exclude, skip or recursive). -/
theorem compare_min_two (cwd : String) (fs : List String)
    (hfree : ∀ f ∈ fs, tokKind f = TokKind.free)
    (hlen : fs.length < 2) :
    (∃ e, parseTokens cwd ("compare" :: fs) = .error e) ∧
    (∀ c : Collab, (runCli cwd ("compare" :: fs) c).invocations = []) ∧
    compare_args.map ArgDecl.name = ["input", "no-color", "quiet"] ∧
    compare_input.minValues = some 2 ∧ compare_input.required = true := by
  have hroot : scanA (common_args cwd) (subcommands cwd) ("compare" :: fs)
      none emptyMatches false = .ok (emptyMatches, some ("compare", fs)) := rfl
  have hval0 : validateArgs emptyMatches (common_args cwd) =
      .ok ⟨[], [("input", [cwd])]⟩ := rfl
  have hmain : ∃ e, parseTokens cwd ("compare" :: fs) = .error e := by
    rcases fs with _ | ⟨f, fs2⟩
    · have hsub : scanA compare_args [] ([] : List String) none
          emptyMatches true = .ok (emptyMatches, none) := rfl
      obtain ⟨e, he⟩ := validateArgs_compare_err emptyMatches (by decide)
      refine ⟨e, ?_⟩
      simp only [parseTokens, hroot, hval0, hsub,
        show argsOfSub cwd "compare" = compare_args from rfl, he]
    · rcases fs2 with _ | ⟨g, fs3⟩
      · have hf := hfree f (List.mem_cons_self _ _)
        have hsub : scanA compare_args [] [f] none emptyMatches true =
            .ok (addValue emptyMatches "input" f, none) := by
          simp only [scanA, hf,
            show findPositional compare_args = some compare_input from rfl,
            compare_input]
        obtain ⟨e, he⟩ := validateArgs_compare_err
          (addValue emptyMatches "input" f) (by simp [values_of, addValue,
            insertValue, findValues])
        refine ⟨e, ?_⟩
        simp only [parseTokens, hroot, hval0,
          show argsOfSub cwd "compare" = compare_args from rfl, hsub, he]
      · simp only [List.length_cons] at hlen; omega
  obtain ⟨e, he⟩ := hmain
  refine ⟨⟨e, he⟩, ?_, by decide, by decide, by decide⟩
  intro c
  simp [runCli, he]

/-- Witness for C7 at the concrete invocation `compare a.env`. -/
theorem compare_min_two_witness :
    (∃ e, parseTokens "/cwd" ["compare", "a.env"] = .error e) ∧
    (∀ c : Collab,
      (runCli "/cwd" ["compare", "a.env"] c).invocations = []) ∧
    compare_args.map ArgDecl.name = ["input", "no-color", "quiet"] ∧
    compare_input.minValues = some 2 ∧ compare_input.required = true :=
  compare_min_two "/cwd" ["a.env"] (by decide) (by decide)

/-- C9: on the fix path the fix collaborator is invoked with the fix
matches and the current directory and the exit code is 0 whenever it
returns without failing, regardless of warnings; and in the invoked
context the no-backup flag is present exactly when `--no-backup` was
given on the command line. -/
theorem fix_path (cwd : String) :
    (∀ (args : ArgMatches) (m : Matches) (c : Collab),
        args.sub = some ("fix", m) → c.fix = .ok () →
        (runMain cwd args c).exitCode = 0 ∧
        (runMain cwd args c).invocations = [Invoked.fix m cwd]) ∧
    (∀ (rest : List String) (args : ArgMatches) (m : Matches),
        parseTokens cwd ("fix" :: rest) = .ok args →
        args.sub = some ("fix", m) →
        (is_present m "no-backup" = true ↔ "--no-backup" ∈ rest)) := by
  constructor
  · intro args m c hsub hc
    constructor <;> simp [runMain, hsub, hc]
  · intro rest args m hparse hsub
    obtain ⟨raw, subInfo, rootM, hscan, hval, hroot, hrest⟩ :=
      parseTokens_ok_elim cwd ("fix" :: rest) args hparse
    have hroot_scan : scanA (common_args cwd) (subcommands cwd)
        ("fix" :: rest) none emptyMatches false =
        .ok (emptyMatches, some ("fix", rest)) := rfl
    rw [hroot_scan] at hscan
    injection hscan with hp
    injection hp with hraw hsub2
    rcases hrest with ⟨hnone, _⟩ | ⟨name, rest2, subRaw, s2, subM, hsi,
      hscan3, hval2, hsub3⟩
    · rw [← hsub2] at hnone
      exact absurd hnone (by simp)
    · rw [← hsub2] at hsi
      injection hsi with hsi2
      injection hsi2 with hname hrest2
      subst hname
      subst hrest2
      rw [hsub3] at hsub
      injection hsub with hs4
      injection hs4 with _ hm
      subst hm
      rw [show argsOfSub cwd "fix" = fix_args cwd from rfl] at hscan3 hval2
      have hvk : values_of subRaw "no-backup" = [] := by
        have hkeys := scanA_values_keys (fix_args cwd) [] rest none
          emptyMatches true subRaw s2 hscan3 (by simp) "no-backup" ?_
        · rw [hkeys]; rfl
        · rw [show valueNames (fix_args cwd) = ["input", "exclude", "skip"]
            from rfl]
          decide
      have hall : ∀ d ∈ fix_args cwd,
          d.defaultValue = none ∨ d.name ≠ "no-backup" := by
        intro d hd
        simp [fix_args, common_args] at hd
        rcases hd with rfl | rfl | rfl | rfl | rfl | rfl | rfl
        · exact Or.inr (by simp [input_arg])
        · exact Or.inl rfl
        · exact Or.inl rfl
        · exact Or.inl rfl
        · exact Or.inl rfl
        · exact Or.inl rfl
        · exact Or.inl rfl
      have hvm : values_of subM "no-backup" = [] := by
        rw [validateArgs_values (fix_args cwd) subRaw subM "no-backup"
          hval2 hall, hvk]
      have hmf : subM.flags = subRaw.flags :=
        validateArgs_flags _ subRaw subM hval2
      have hflagiff : "no-backup" ∈ subRaw.flags ↔ "--no-backup" ∈ rest := by
        constructor
        · intro hmem
          rcases scanA_flags_from (fix_args cwd) [] rest none emptyMatches
            true subRaw s2 hscan3 "no-backup" hmem with ha | ⟨t, ht, hft⟩
          · simp [emptyMatches] at ha
          · rw [← flagToken_no_backup cwd t hft]; exact ht
        · intro hmem
          refine scanA_flags_to (fix_args cwd) rest none emptyMatches true
            subRaw s2 hscan3 "no-backup" (Or.inr ⟨"--no-backup", hmem, ?_⟩)
          exact Or.inl ⟨"no-backup", no_backup_flag, by decide, rfl,
            rfl, rfl⟩
      simp [is_present, hvm, hmf]
      exact hflagiff

/-- Witness for C9 at the concrete invocation `fix --no-backup .env`. -/
theorem fix_path_witness :
    ((runMain "/cwd" argsFix collabOk).exitCode = 0 ∧
      (runMain "/cwd" argsFix collabOk).invocations =
        [Invoked.fix mFix "/cwd"]) ∧
    (is_present mFix "no-backup" = true ↔
      "--no-backup" ∈ ["--no-backup", ".env"]) :=
  ⟨(fix_path "/cwd").1 argsFix mFix collabOk rfl rfl,
   (fix_path "/cwd").2 ["--no-backup", ".env"] argsFixParsed mFix
     (by decide) rfl⟩

/-- C10: when the first token of the command line is a free word that is
none of the subcommand names or aliases (fix/f, list/l, compare/c), a
successful parse consumes it as a value of the root positional `input`
declaration, the run carries no subcommand, and the router takes the
default check path. -/
theorem free_word_check_path (cwd w : String) (rest : List String)
    (args : ArgMatches) (c : Collab)
    (hfree : tokKind w = TokKind.free)
    (h1 : w ≠ "fix") (h2 : w ≠ "f") (h3 : w ≠ "list") (h4 : w ≠ "l")
    (h5 : w ≠ "compare") (h6 : w ≠ "c")
    (hparse : parseTokens cwd (w :: rest) = .ok args) :
    args.sub = none ∧ w ∈ values_of args.root "input" ∧
    (runCli cwd (w :: rest) c).invocations = [Invoked.check args cwd] := by
  obtain ⟨raw, subInfo, rootM, hscan, hval, hroot, hrest⟩ :=
    parseTokens_ok_elim cwd (w :: rest) args hparse
  have hstep : scanA (common_args cwd) (subcommands cwd) rest none
      (addValue emptyMatches "input" w) true = .ok (raw, subInfo) := by
    simp only [scanA, hfree, findSub_none cwd w h1 h2 h3 h4 h5 h6,
      show findPositional (common_args cwd) = some (input_arg cwd) from rfl,
      input_arg] at hscan
    exact hscan
  have hsubnone : subInfo = none :=
    scanA_seen_true_no_sub _ _ _ _ _ _ _ hstep
  subst hsubnone
  rcases hrest with ⟨_, hargsub⟩ | ⟨name, rest2, subRaw, s2, subM, hsi, _⟩
  · have hwraw : w ∈ values_of raw "input" := by
      refine scanA_values_mono _ _ _ _ _ _ _ _ hstep "input" w ?_
      rw [show values_of (addValue emptyMatches "input" w) "input" = [w]
        from rfl]
      exact List.mem_singleton.2 rfl
    have hwroot : w ∈ values_of rootM "input" :=
      validateArgs_values_mem _ _ _ _ _ hval hwraw
    refine ⟨hargsub, ?_, ?_⟩
    · rw [hroot]; exact hwroot
    · simp only [runCli, hparse]
      exact runMain_check_invocations cwd args c hargsub
  · exact absurd hsi (by simp)

/-- Witness for C10 at the concrete invocation `bogus`. -/
theorem free_word_check_path_witness :
    argsBogus.sub = none ∧
    "bogus" ∈ values_of argsBogus.root "input" ∧
    (runCli "/cwd" ["bogus"] collabOk).invocations =
      [Invoked.check argsBogus "/cwd"] :=
  free_word_check_path "/cwd" "bogus" [] argsBogus collabOk (by decide)
    (by decide) (by decide) (by decide) (by decide) (by decide) (by decide)
    (by decide)

end DotenvLinter
